import Mathlib

/-!
Shallow embedding of the decision-tree learner (Go sources: `hacker2/main.go`
as the primary variant, plus the divergent helpers from `hacker/main.go` and
the unnamed variant) and proofs of the specification claims.

Modelling conventions:
* Go `float64` values are modelled as exact rationals `ℚ`; entropy and other
  `math.Log2`-based quantities live in `ℝ` via `Real.logb 2`.
* Go maps are modelled as association lists in first-insertion order; Go map
  iteration order is unspecified, so theorems below avoid tie situations in
  which the iteration order could change a result.
* A Go runtime panic (out-of-range index) is modelled by `Option.none`;
  functions that cannot panic stay total.
* `time.Time` cells are modelled by their Unix-seconds value (constructor
  `CellValue.date`).
-/

namespace DT

/-- A cell of the loaded dataset: Go `interface{}` holding a `string`, a
`float64`, or a `time.Time` (modelled by its Unix seconds). -/
inductive CellValue : Type where
  | str (s : String)
  | num (q : ℚ)
  | date (t : Int)
deriving DecidableEq, Repr

abbrev Row := List CellValue

abbrev Dataset := List Row

/-- Go `classCounts[key]++` on a map modelled as an insertion-ordered
association list. -/
def bump : List (String × Nat) → String → List (String × Nat)
  | [], c => [(c, 1)]
  | (k, n) :: rest, c => if k = c then (k, n + 1) :: rest else (k, n) :: bump rest c

/-- The `maxCount := 0; for class, count := range m { if count > maxCount ... }`
pattern shared by `BuildDecisionTree` and `FindMostCommonClass`: the first
entry with a strictly larger count wins; result `""` when nothing beats 0. -/
def pickMostCommon (l : List (String × Nat)) : String :=
  (l.foldl (fun best p => if best.2 < p.2 then p else best) ("", 0)).1

/-- Lookup of `header` index of an attribute: the `for i, col := range header`
loop that breaks at the first match and leaves `attrIndex = -1` (here `none`)
when absent. -/
def headerIndex : List String → String → Option Nat
  | [], _ => none
  | h :: t, attr =>
      if h = attr then some 0 else (headerIndex t attr).map (fun i => i + 1)

/-- Go map read `instance[key]` on a string-to-string record. -/
def lookupStr : List (String × String) → String → Option String
  | [], _ => none
  | (k, v) :: rest, key => if k = key then some v else lookupStr rest key

/-- Model of `subsets[key] = append(subsets[key], row)` on an insertion-ordered
association list of subsets. -/
def insertGroup : List (String × Dataset) → String → Row → List (String × Dataset)
  | [], k, r => [(k, [r])]
  | (k2, rs) :: rest, k, r =>
      if k2 = k then (k2, rs ++ [r]) :: rest else (k2, rs) :: insertGroup rest k r

/-- Reads column `idx` of every row (`row[attrIndex]` inside a loop over the
dataset); `none` models the Go index-out-of-range panic on a short row. -/
def getCol : Dataset → Nat → Option (List CellValue)
  | [], _ => some []
  | r :: rs, idx =>
      match r[idx]? with
      | none => none
      | some c =>
          match getCol rs idx with
          | none => none
          | some cs => some (c :: cs)

/-! ### Formatting helpers (`fmt.Sprintf`) -/

/-- Two-digit zero padding. -/
def pad2 (n : Nat) : String := if n < 10 then "0" ++ toString n else toString n

/-- Model of `fmt.Sprintf("%.2f", x)` for the exact-rational model of a float64:
`|x| * 100` rounded to the nearest integer, ties to even (the rounding of
Go's binary-to-decimal conversion), computed on the reduced
numerator/denominator so that it evaluates by kernel reduction. -/
def fmt2 (q : ℚ) : String :=
  let sign := if q < 0 then "-" else ""
  let scaled : Nat := q.num.natAbs * 100
  let fl : Nat := scaled / q.den
  let rem : Nat := scaled % q.den
  let n : Nat :=
    if 2 * rem < q.den then fl
    else if q.den < 2 * rem then fl + 1
    else if fl % 2 = 0 then fl else fl + 1
  sign ++ toString (n / 100) ++ "." ++ pad2 (n % 100)

/-! ### Date handling

`hacker2`'s `FindBestThreshold` tries `time.Parse("2006-01-02", v)` on string
cells and uses `t.Unix()`; the `unnamed` variant converts `time.Time` cells
with `.Unix()`.  We implement the Gregorian-calendar conversion (days since
1970-01-01) directly. -/

def isLeapYear (y : Int) : Bool :=
  y % 4 = 0 && (y % 100 ≠ 0 || y % 400 = 0)

def daysInMonth (y : Int) (m : Nat) : Nat :=
  if m = 2 then (if isLeapYear y then 29 else 28)
  else if m = 4 ∨ m = 6 ∨ m = 9 ∨ m = 11 then 30 else 31

/-- Days from the civil epoch 1970-01-01 to year `y`, month `m`, day `d`
(standard era-based Gregorian formula). -/
def daysFromCivil (y : Int) (m d : Nat) : Int :=
  let y2 : Int := if m ≤ 2 then y - 1 else y
  let era : Int := (if 0 ≤ y2 then y2 else y2 - 399) / 400
  let yoe : Nat := (y2 - era * 400).toNat
  let mp : Nat := (m + 9) % 12
  let doy : Nat := (153 * mp + 2) / 5 + d - 1
  let doe : Nat := yoe * 365 + yoe / 4 - yoe / 100 + doy
  era * 146097 + (doe : Int) - 719468

/-- Inverse of `daysFromCivil`: civil date of a day count since the epoch. -/
def civilFromDays (z0 : Int) : Int × Nat × Nat :=
  let z := z0 + 719468
  let era : Int := (if 0 ≤ z then z else z - 146096) / 146097
  let doe : Nat := (z - era * 146097).toNat
  let yoe : Nat := (doe - doe / 1460 + doe / 36524 - doe / 146096) / 365
  let y : Int := (yoe : Int) + era * 400
  let doy : Nat := doe - (365 * yoe + yoe / 4 - yoe / 100)
  let mp : Nat := (5 * doy + 2) / 153
  let d : Nat := doy - (153 * mp + 2) / 5 + 1
  let m : Nat := if mp < 10 then mp + 3 else mp - 9
  (if m ≤ 2 then y + 1 else y, m, d)

def digits? (cs : List Char) : Option Nat :=
  if cs ≠ [] ∧ cs.all Char.isDigit then
    some (cs.foldl (fun acc c => acc * 10 + (c.toNat - 48)) 0)
  else none

/-- Splitting a character list on `-` (the `strings.Split` behaviour used via
`time.Parse`'s format scan). -/
def splitDash : List Char → List Char → List (List Char)
  | [], cur => [cur.reverse]
  | c :: rest, cur =>
      if c = '-' then cur.reverse :: splitDash rest [] else splitDash rest (c :: cur)

/-- Model of `time.Parse("2006-01-02", s)` followed by `.Unix()`: accepts exactly a
4-digit year, 2-digit month and 2-digit day with valid ranges. -/
def parseYMD (s : String) : Option Int :=
  match splitDash s.toList [] with
  | [ys, ms, ds] =>
      if ys.length = 4 ∧ ms.length = 2 ∧ ds.length = 2 then
        match digits? ys, digits? ms, digits? ds with
        | some y, some m, some d =>
            if 1 ≤ m ∧ m ≤ 12 ∧ 1 ≤ d ∧ d ≤ daysInMonth (y : Int) m then
              some (daysFromCivil (y : Int) m d * 86400)
            else none
        | _, _, _ => none
      else none
  | _ => none

def pad4 (n : Int) : String :=
  let s := toString n.toNat
  if s.length ≥ 4 then s else String.mk (List.replicate (4 - s.length) '0') ++ s

/-- Model of Go `fmt.Sprintf("%v", f)` for a float64 carried as an exact
rational: the exact (finite) decimal expansion with trailing zeros trimmed,
matching Go's shortest round-trip formatting on exactly representable
values.  Rationals without a finite decimal expansion cannot arise from
float64 cells; for totality they fall back to `toString`. -/
def goFmtFloat (q : ℚ) : String :=
  if q = 0 then "0"
  else
    let sign := if q < 0 then "-" else ""
    match (List.range 65).find? (fun k => q.num.natAbs * 10 ^ k % q.den = 0) with
    | some k =>
        let v := q.num.natAbs * 10 ^ k / q.den
        let ip := v / 10 ^ k
        let fp := v % 10 ^ k
        if fp = 0 then sign ++ toString ip
        else
          let frStr := String.mk (List.replicate (k - (toString fp).length) '0') ++ toString fp
          sign ++ toString ip ++ "." ++ String.mk (frStr.toList.reverse.dropWhile (· = '0')).reverse
    | none => sign ++ toString q.num.natAbs ++ "/" ++ toString q.den

/-- Model of Go `fmt.Sprintf("%v", t)` for a `time.Time` (UTC):
`"YYYY-MM-DD HH:MM:SS +0000 UTC"`. -/
def goFmtTime (unix : Int) : String :=
  let days : Int := unix / 86400 - (if unix % 86400 < 0 then 1 else 0)
  let secs : Nat := (unix - days * 86400).toNat
  let c := civilFromDays days
  pad4 c.1 ++ "-" ++ pad2 c.2.1 ++ "-" ++ pad2 c.2.2 ++ " " ++
    pad2 (secs / 3600) ++ ":" ++ pad2 (secs % 3600 / 60) ++ ":" ++ pad2 (secs % 60) ++
    " +0000 UTC"

/-- Go `fmt.Sprintf("%v", cell)` on an `interface{}` cell. -/
def goFmtV : CellValue → String
  | .str s => s
  | .num q => goFmtFloat q
  | .date t => goFmtTime t

/-- Insertion of a value into a sorted list of rationals. -/
def insertSorted (x : ℚ) : List ℚ → List ℚ
  | [] => [x]
  | y :: ys => if x ≤ y then x :: y :: ys else y :: insertSorted x ys

/-- Model of `sort.Float64s`: ascending sort of the collected values.  (The Go
sort is in place and unstable, but on plain numbers the sorted list is
unique, so any sorting algorithm is a faithful model.) -/
def sortQ (l : List ℚ) : List ℚ := l.foldr insertSorted []

/-! ### Impurity engine (`hacker2/main.go`, `CountClassOccurrences`,
`ComputeProbabilities`, `Entropy`) -/

/-- Embedding of `CountClassOccurrences`: counts the last cell of every row, skipping empty
rows and rows whose last cell is not a string (the failed
`row[len(row)-1].(string)` assertion). -/
def countClassOccurrences (ds : Dataset) : List (String × Nat) :=
  ds.foldl
    (fun acc r =>
      match r.getLast? with
      | some (.str c) => bump acc c
      | _ => acc)
    []

/-- Embedding of `ComputeProbabilities`: `count/totalSamples` per class. -/
noncomputable def computeProbabilities (counts : List (String × Nat)) (total : Nat) :
    List (String × ℝ) :=
  counts.map (fun p => (p.1, (p.2 : ℝ) / (total : ℝ)))

/-- The `entropy -= probability * math.Log2(probability)` accumulation loop,
guarded by `probability > 0`. -/
noncomputable def entropyFold (ps : List (String × ℝ)) : ℝ :=
  ps.foldl (fun e p => if 0 < p.2 then e - p.2 * Real.logb 2 p.2 else e) 0

/-- Embedding of `Entropy` (hacker2 variant, with the `totalSamples == 0` guard). -/
noncomputable def Entropy (ds : Dataset) : ℝ :=
  if ds.length = 0 then 0
  else entropyFold (computeProbabilities (countClassOccurrences ds) ds.length)

/-! ### Splitter (`hacker2/main.go`, `SplitDataset`, `FindBestThreshold`) -/

/-- The branch key taken from a cell by the categorical split:
`key, _ := row[attrIndex].(string)`, whose zero value is `""` when the cell
is not a string. -/
def keyOf : CellValue → String
  | .str s => s
  | _ => ""

/-- The categorical branch of `SplitDataset`: groups rows by the string at
`attrIndex` (zero value `""` when the cell is not a string), skipping rows
shorter than `attrIndex + 1` (the `attrIndex < len(row)` guard). -/
def groupByKey (ds : Dataset) (idx : Nat) : List (String × Dataset) :=
  ds.foldl
    (fun gs r =>
      match r[idx]? with
      | some c => insertGroup gs (keyOf c) r
      | none => gs)
    []

/-- The value collected by `FindBestThreshold` (hacker2) from one cell: a
float64 directly, or a string parsed with `time.Parse("2006-01-02", ·)` and
converted to Unix seconds; `time.Time` cells match neither type assertion. -/
def h2NumValue : CellValue → Option ℚ
  | .num q => some q
  | .str s => (parseYMD s).map (fun t => (t : ℚ))
  | .date _ => none

/-- The partition-loop value `val, _ := row[attrIndex].(float64)`: the float
at `idx`, or the zero value `0` for any other cell kind. -/
def floatValAt (r : Row) (idx : Nat) : ℚ :=
  match r[idx]? with
  | some (.num q) => q
  | _ => 0

/-- Embedding of `FindBestThreshold` (hacker2 variant): collects the usable numeric values,
sorts them, takes `values[len(values)/2]` as the threshold, and partitions the
rows by `val <= bestThreshold`.  `none` models the two possible panics: a row
shorter than `attrIndex + 1`, or `values[0]` on an empty `values` slice. -/
def FindBestThreshold (ds : Dataset) (idx : Nat) :
    Option (ℚ × Dataset × Dataset) :=
  match getCol ds idx with
  | none => none
  | some cells =>
      let values := cells.filterMap h2NumValue
      match (sortQ values)[values.length / 2]? with
      | none => none
      | some t =>
          some (t, ds.filter (fun r => decide (floatValAt r idx ≤ t)),
            ds.filter (fun r => decide (¬ floatValAt r idx ≤ t)))

/-- Embedding of `SplitDataset` (hacker2 variant): resolves the attribute index (empty map
when absent), dispatches on the dynamic type of `dataset[0][attrIndex]`
(`none` models the panic when the dataset is empty or the first row is short):
categorical grouping for strings, threshold split otherwise, with branch keys
`<=%.2f` / `>%.2f`. -/
def SplitDataset (ds : Dataset) (hdr : List String) (attr : String) :
    Option (List (String × Dataset)) :=
  match headerIndex hdr attr with
  | none => some []
  | some idx =>
    match ds with
    | [] => none
    | r0 :: _ =>
      match r0[idx]? with
      | none => none
      | some (.str _) => some (groupByKey ds idx)
      | some _ =>
          match FindBestThreshold ds idx with
          | none => none
          | some p => some [("<=" ++ fmt2 p.1, p.2.1), (">" ++ fmt2 p.1, p.2.2)]

/-! ### Attribute selector (`hacker2/main.go`, `InformationGain`, `GainRatio`,
`BestAttribute`) -/

/-- Embedding of `InformationGain`: dataset entropy minus the subset-size-weighted entropy
over `SplitDataset`; `0` for an empty dataset. -/
noncomputable def InformationGain (ds : Dataset) (hdr : List String) (attr : String) :
    Option ℝ :=
  if ds.length = 0 then some 0
  else
    (SplitDataset ds hdr attr).map
      (fun subsets =>
        Entropy ds -
          subsets.foldl
            (fun acc p => acc + ((p.2.length : ℝ) / (ds.length : ℝ)) * Entropy p.2) 0)

/-- Embedding of `GainRatio`: information gain over split information, with the `0` guards
for empty datasets, zero gain and zero split information. -/
noncomputable def GainRatio (ds : Dataset) (hdr : List String) (attr : String) :
    Option ℝ :=
  if ds.length = 0 then some 0
  else
    match InformationGain ds hdr attr with
    | none => none
    | some ig =>
      if ig = 0 then some 0
      else
        match SplitDataset ds hdr attr with
        | none => none
        | some subsets =>
          let splitInfo :=
            subsets.foldl
              (fun acc p =>
                let prop := (p.2.length : ℝ) / (ds.length : ℝ)
                if 0 < prop then acc - prop * Real.logb 2 prop else acc)
              0
          if splitInfo = 0 then some 0 else some (ig / splitInfo)

/-- Embedding of `BestAttribute` (hacker2 variant): best gain ratio over
`header[:len(header)-1]` with the running best initialised to `-1`, strict
improvement only (first attribute wins ties).  `none` models the slice-bounds
panic of `header[:len(header)-1]` on an empty header, and propagates panics of
`GainRatio`. -/
noncomputable def BestAttribute (ds : Dataset) (hdr : List String) : Option String :=
  match hdr with
  | [] => none
  | _ =>
      (hdr.dropLast.foldl
        (fun acc attr =>
          match acc with
          | none => none
          | some best =>
            match GainRatio ds hdr attr with
            | none => none
            | some gr => if best.2 < gr then some (attr, gr) else some best)
        (some ("", (-1 : ℝ)))).map Prod.fst

/-! ### Tree node (`hacker2/main.go`, `type TreeNode struct`)

`Children map[string]*TreeNode` is modelled as a mutual inductive family so
that the Go distinction between a `nil` map (a leaf's zero value) and a
non-`nil` map created with `make` survives, and so that all recursions over
trees are structural. -/

mutual

inductive TreeNode : Type where
  | mk (attr : String) (threshold : ℚ) (children : Children) (cls : String)
      (isLeaf : Bool)

inductive Children : Type where
  | nil0
  | node (entries : Entries)

inductive Entries : Type where
  | nil
  | cons (key : String) (child : TreeNode) (rest : Entries)

end

def TreeNode.cls : TreeNode → String
  | .mk _ _ _ c _ => c

def TreeNode.isLeaf : TreeNode → Bool
  | .mk _ _ _ _ l => l

def TreeNode.attr : TreeNode → String
  | .mk a _ _ _ _ => a

/-- Go map read `node.Children[key]` (lookup in a `nil` map finds nothing). -/
def lookupEntry : Entries → String → Option TreeNode
  | .nil, _ => none
  | .cons k c rest, key => if k = key then some c else lookupEntry rest key

/-! ### Predictor (`hacker2/main.go`, `FindMostCommonClass`, `Predict`) -/

mutual

/-- Embedding of `FindMostCommonClass`: builds `classCount` by giving every child one vote
(a leaf child votes its `Class`, an internal child votes its own recursively
computed most-common class), then picks the entry with the strictly largest
count (`maxCount` starts at 0, first entry wins ties in insertion order). -/
def FindMostCommonClass : TreeNode → String
  | .mk _ _ Children.nil0 _ _ => pickMostCommon []
  | .mk _ _ (Children.node es) _ _ => pickMostCommon (fmccTally es [])

/-- The `for _, child := range node.Children` tally loop of
`FindMostCommonClass`. -/
def fmccTally : Entries → List (String × Nat) → List (String × Nat)
  | Entries.nil, acc => acc
  | Entries.cons _ (TreeNode.mk _ _ _ c true) rest, acc =>
      fmccTally rest (bump acc c)
  | Entries.cons _ (TreeNode.mk a th ch c false) rest, acc =>
      fmccTally rest (bump acc (FindMostCommonClass (TreeNode.mk a th ch c false)))

end

mutual

/-- Embedding of `Predict` (hacker2 variant): leaf class, `"Unknown"` when the node's
attribute is absent from the record, recursion into the matching child, and
the `FindMostCommonClass` fallback when the branch key is unseen. -/
def Predict : TreeNode → List (String × String) → String
  | .mk _ _ _ c true, _ => c
  | .mk a th ch c false, inst =>
      match lookupStr inst a with
      | none => "Unknown"
      | some v =>
          match ch with
          | Children.nil0 => FindMostCommonClass (TreeNode.mk a th Children.nil0 c false)
          | Children.node es =>
              match predictEntries es v inst with
              | some res => res
              | none => FindMostCommonClass (TreeNode.mk a th (Children.node es) c false)

/-- The `node.Children[attrValue]` lookup fused with the recursive call of
`Predict`; `none` when the branch key is absent. -/
def predictEntries : Entries → String → List (String × String) → Option String
  | Entries.nil, _, _ => none
  | Entries.cons k c rest, v, inst =>
      if k = v then some (Predict c inst) else predictEntries rest v inst

end

/-! ### Tree builder (`hacker2/main.go`, `BuildDecisionTree`)

The Go function recurses with no decreasing measure; the embedding threads an
explicit fuel parameter, and `none` means that no finite fuel suffices on the
taken path (non-termination) or that a modelled panic occurred. -/

/-- The `for attrValue, subset := range splitted` loop of the categorical
branch, building the children map from recursive calls. -/
def buildEntries (rec : Dataset → List String → Option TreeNode)
    (hdr : List String) : List (String × Dataset) → Option Entries
  | [] => some Entries.nil
  | (k, sub) :: rest =>
      match rec sub hdr with
      | none => none
      | some c =>
          match buildEntries rec hdr rest with
          | none => none
          | some es => some (Entries.cons k c es)

/-- One unfolding of `BuildDecisionTree`, with `rec` standing for the
recursive calls: pure-class leaf, majority leaf when `BestAttribute` returns
`""`, otherwise an internal node grown by the categorical or numeric branch
(dispatch on `dataset[0][attrIndex]`, whose out-of-range access on an empty
dataset is modelled by `none`). -/
noncomputable def buildDTStep (rec : Dataset → List String → Option TreeNode)
    (ds : Dataset) (hdr : List String) : Option TreeNode :=
  match countClassOccurrences ds with
  | [(c, _)] => some (TreeNode.mk "" 0 Children.nil0 c true)
  | counts =>
    match BestAttribute ds hdr with
    | none => none
    | some bestAttr =>
      if bestAttr = "" then
        some (TreeNode.mk "" 0 Children.nil0 (pickMostCommon counts) true)
      else
        match headerIndex hdr bestAttr with
        | none => none
        | some idx =>
          match ds with
          | [] => none
          | r0 :: _ =>
            match r0[idx]? with
            | none => none
            | some (.str _) =>
                (match SplitDataset ds hdr bestAttr with
                 | none => none
                 | some subsets =>
                   match buildEntries rec hdr subsets with
                   | none => none
                   | some es =>
                       some (TreeNode.mk bestAttr 0 (Children.node es) "" false))
            | some _ =>
                match FindBestThreshold ds idx with
                | none => none
                | some p =>
                  match rec p.2.1 hdr with
                  | none => none
                  | some lt =>
                    match rec p.2.2 hdr with
                    | none => none
                    | some rt =>
                        some (TreeNode.mk bestAttr p.1
                          (Children.node (Entries.cons ("<=" ++ fmt2 p.1) lt
                            (Entries.cons (">" ++ fmt2 p.1) rt Entries.nil))) "" false)

/-- Embedding of `BuildDecisionTree` with explicit fuel. -/
noncomputable def buildDT : Nat → Dataset → List String → Option TreeNode
  | 0 => fun _ _ => none
  | fuel + 1 => buildDTStep (buildDT fuel)

/-! ### The `hacker/main.go` variant (first program): midpoint threshold
search (`FindBestThreshold` / `EvaluateThreshold`) over `CountClassOccurrences`
with `fmt.Sprintf("%v", ·)` labels. -/

/-- Embedding of `CountClassOccurrences` (hacker variant): formats the last cell with
`%v`, so every non-empty row is counted. -/
def countH (ds : Dataset) : List (String × Nat) :=
  ds.foldl
    (fun acc r =>
      match r.getLast? with
      | some c => bump acc (goFmtV c)
      | none => acc)
    []

/-- Embedding of `Entropy` (hacker variant; no `totalSamples == 0` guard, which is
harmless because an empty dataset yields no class counts). -/
noncomputable def EntropyH (ds : Dataset) : ℝ :=
  entropyFold (computeProbabilities (countH ds) ds.length)

/-- Embedding of `EvaluateThreshold` (hacker variant): partitions the rows carrying a
float64 at `idx` by `val <= threshold` (other rows are skipped by the failed
type assertion) and returns the information gain against the weighted entropy
of the two sides.  Go indexes `row[attrIndex]` and would panic on a short
row; all uses below are guarded by hypotheses giving every row a cell at
`idx`. -/
noncomputable def EvaluateThresholdH (ds : Dataset) (idx : Nat) (t : ℚ) : ℝ :=
  let lft := ds.filter (fun r =>
    match r[idx]? with | some (CellValue.num q) => decide (q ≤ t) | _ => false)
  let rgt := ds.filter (fun r =>
    match r[idx]? with | some (CellValue.num q) => decide (¬ q ≤ t) | _ => false)
  if ds.length = 0 then 0
  else
    EntropyH ds -
      (((lft.length : ℝ) / (ds.length : ℝ)) * EntropyH lft +
        ((rgt.length : ℝ) / (ds.length : ℝ)) * EntropyH rgt)

/-- The float64 values at column `idx` (`val, ok := row[attrIndex].(float64)`
collection loop); `none` models the index panic on a short row. -/
def floatsAt : Dataset → Nat → Option (List ℚ)
  | [], _ => some []
  | r :: rs, idx => do
      let c ← r[idx]?
      let vs ← floatsAt rs idx
      pure (match c with | .num q => q :: vs | _ => vs)

/-- The midpoint candidates `(values[i] + values[i+1]) / 2` for
`i = 0 .. len(values)-2`. -/
def midpoints (values : List ℚ) : List ℚ :=
  (values.zip values.tail).map (fun p => (p.1 + p.2) / 2)

/-- Embedding of `FindBestThreshold` (hacker variant): sorts the column's float64 values
and keeps the midpoint candidate with the strictly largest
`EvaluateThreshold` information gain, starting from `bestInfoGain = -1`
(first candidate wins ties, threshold `0` when there are no candidates). -/
noncomputable def FindBestThresholdH (ds : Dataset) (idx : Nat) : Option ℚ :=
  (floatsAt ds idx).map (fun values =>
    (midpoints (sortQ values)).foldl
      (fun best c =>
        let ig := EvaluateThresholdH ds idx c
        if best.2 < ig then (c, ig) else best)
      ((0 : ℚ), (-1 : ℝ)) |>.1)

/-! ### The `unnamed/part_000` variant: `FindBestThreshold` with the
empty-`values` guard and `time.Time` support. -/

/-- The value collected by the unnamed variant's `FindBestThreshold` from one
cell: a float64, or a `time.Time` converted with `.Unix()`. -/
def uNumValue : CellValue → Option ℚ
  | .num q => some q
  | .date t => some (t : ℚ)
  | .str _ => none

/-- The partition value of the unnamed variant: float64 or Unix seconds,
zero value otherwise. -/
def uFloatValAt (r : Row) (idx : Nat) : ℚ :=
  match r[idx]? with
  | some (.num q) => q
  | some (.date t) => (t : ℚ)
  | _ => 0

/-- Embedding of `FindBestThreshold` (unnamed variant): like hacker2's median split but
with `time.Time` support and an explicit `len(values) == 0` guard returning
the sentinel `(0, nil, nil)` instead of indexing an empty slice. -/
def FindBestThresholdU (ds : Dataset) (idx : Nat) : Option (ℚ × Dataset × Dataset) :=
  match getCol ds idx with
  | none => none
  | some cells =>
    let values := cells.filterMap uNumValue
    if values = [] then some (0, [], [])
    else
      match (sortQ values)[values.length / 2]? with
      | none => none
      | some t =>
          some (t, ds.filter (fun r => decide (uFloatValAt r idx ≤ t)),
            ds.filter (fun r => decide (¬ uFloatValAt r idx ≤ t)))

/-! ### CSV loading (`hacker2/main.go`, `detectColumnTypes` and the conversion
loop of `LoadCsv`)

`strconv.ParseFloat` and `parseDate` (the four-format date sniffing) are taken
as parameters: the claims below depend only on which cells they accept, not on
the numeric values they produce. -/

/-- Embedding of `detectColumnTypes` (hacker2 variant): a column is `"numeric"` when every
cell parses as a float, else `"date"` when every cell parses as a date, else
`"categorical"`.  (Go indexes `data[row][col]` over `len(data[0])` columns and
would panic on a ragged record; a missing cell is treated as parsing
failure, and all uses below are on rectangular data.) -/
def detectColumnTypes (pn : String → Option ℚ) (pd : String → Option Int)
    (data : List (List String)) : List String :=
  (List.range (data.headD []).length).map (fun col =>
    let isNumeric := data.all (fun r => (r[col]?.bind pn).isSome)
    let isDate := data.all (fun r => (r[col]?.bind pd).isSome)
    if isNumeric then "numeric" else if isDate then "date" else "categorical")

/-- The Unix seconds of Go's zero `time.Time` (January 1, year 1), produced
by `parseDate` on failure (the error is discarded in `LoadCsv`). -/
def zeroTimeUnix : Int := -62135596800

/-- The per-row conversion loop of `LoadCsv`: each cell becomes a float, a
time, or stays a string according to its column's detected type, parse errors
being discarded (`num, _ := strconv.ParseFloat(val, 64)` yields the zero
value). -/
def convertRow (pn : String → Option ℚ) (pd : String → Option Int)
    (colTypes : List String) (row : List String) : Row :=
  row.enum.map (fun p =>
    match colTypes[p.1]? with
    | some "numeric" => CellValue.num ((pn p.2).getD 0)
    | some "date" => CellValue.date ((pd p.2).getD zeroTimeUnix)
    | _ => CellValue.str p.2)

/-- The dataset-conversion loop of `LoadCsv`. -/
def convertData (pn : String → Option ℚ) (pd : String → Option Int)
    (colTypes : List String) (raw : List (List String)) : Dataset :=
  raw.map (convertRow pn pd colTypes)

/-! ### JSON persistence (`hacker2/main.go`, `TrainModel` / `LoadModel`)

`encoding/json` values are modelled by a mutual inductive JSON tree; encoding
follows `json.Marshal` on the `TreeNode` struct (fields in declaration order,
`nil` map as `null`), decoding follows `json.Unmarshal` into a zero-valued
struct (fields processed sequentially, later duplicates overwriting, unknown
fields ignored, type mismatches failing). -/

mutual

inductive JValue : Type where
  | jstr (s : String)
  | jnum (q : ℚ)
  | jbool (b : Bool)
  | jnull
  | jobj (fields : JFields)

inductive JFields : Type where
  | fnil
  | fcons (key : String) (val : JValue) (rest : JFields)

end

mutual

/-- Model of `json.Marshal` on a `*TreeNode`. -/
def encodeNode : TreeNode → JValue
  | .mk a th ch c l =>
      .jobj (.fcons "Attribute" (.jstr a)
        (.fcons "Threshold" (.jnum th)
          (.fcons "Children" (encodeChildren ch)
            (.fcons "Class" (.jstr c)
              (.fcons "IsLeaf" (.jbool l) .fnil)))))

/-- Model of `json.Marshal` on the children map: `null` for a `nil` map, an object
otherwise. -/
def encodeChildren : Children → JValue
  | Children.nil0 => .jnull
  | Children.node es => .jobj (encodeEntriesJ es)

def encodeEntriesJ : Entries → JFields
  | Entries.nil => .fnil
  | Entries.cons k c rest => .fcons k (encodeNode c) (encodeEntriesJ rest)

end

/-- The in-progress struct of `json.Unmarshal` into `var tree TreeNode`
(zero-valued fields until their keys arrive). -/
structure PartNode where
  pattr : String
  pthreshold : ℚ
  pchildren : Children
  pcls : String
  pisLeaf : Bool

mutual

/-- Model of `json.Unmarshal` into a `TreeNode`: an object whose known fields must have
the right JSON type. -/
def decodeNode : JValue → Option TreeNode
  | .jobj fs =>
      (decodeFields fs ⟨"", 0, Children.nil0, "", false⟩).map
        (fun p => TreeNode.mk p.pattr p.pthreshold p.pchildren p.pcls p.pisLeaf)
  | _ => none

/-- Sequential processing of an object's fields into the struct. -/
def decodeFields : JFields → PartNode → Option PartNode
  | JFields.fnil, acc => some acc
  | JFields.fcons k v rest, acc =>
      match
        (if k = "Attribute" then
          (match v with | .jstr s => some { acc with pattr := s } | _ => none)
        else if k = "Threshold" then
          (match v with | .jnum q => some { acc with pthreshold := q } | _ => none)
        else if k = "Children" then
          (match v with
           | .jnull => some { acc with pchildren := Children.nil0 }
           | .jobj gs => (decodeEntries gs).map
               (fun es => { acc with pchildren := Children.node es })
           | _ => none)
        else if k = "Class" then
          (match v with | .jstr s => some { acc with pcls := s } | _ => none)
        else if k = "IsLeaf" then
          (match v with | .jbool b => some { acc with pisLeaf := b } | _ => none)
        else some acc : Option PartNode)
      with
      | none => none
      | some acc2 => decodeFields rest acc2

/-- Model of `json.Unmarshal` into the children map (`map[string]*TreeNode`): every value
must itself be a tree object. -/
def decodeEntries : JFields → Option Entries
  | JFields.fnil => some Entries.nil
  | JFields.fcons k v rest =>
      match decodeNode v with
      | none => none
      | some c =>
          match decodeEntries rest with
          | none => none
          | some es => some (Entries.cons k c es)

end

/-! # Theorems -/

/-! ## C9: entropy of empty and label-homogeneous datasets -/

lemma countCO_step (acc : List (String × Nat)) (r : Row) (c : String)
    (h : r.getLast? = some (CellValue.str c)) :
    (match r.getLast? with
      | some (.str cl) => bump acc cl
      | _ => acc) = bump acc c := by
  rw [h]

lemma countCO_homog (c : String) :
    ∀ (rows : Dataset) (k : Nat), (∀ r ∈ rows, r.getLast? = some (CellValue.str c)) →
      rows.foldl
        (fun acc r =>
          match r.getLast? with
          | some (.str cl) => bump acc cl
          | _ => acc)
        [(c, k)] = [(c, k + rows.length)] := by
  intro rows
  induction rows with
  | nil => intro k _; simp
  | cons r rs ih =>
      intro k h
      have hr : r.getLast? = some (CellValue.str c) := h r (by simp)
      have hrest : ∀ x ∈ rs, x.getLast? = some (CellValue.str c) :=
        fun x hx => h x (by simp [hx])
      simp only [List.foldl_cons, countCO_step _ _ _ hr]
      have hb : bump [(c, k)] c = [(c, k + 1)] := by simp [bump]
      rw [hb, ih (k + 1) hrest]
      simp [List.length_cons]
      omega

lemma countCO_homog_eq (rows : Dataset) (c : String) (hne : rows ≠ [])
    (h : ∀ r ∈ rows, r.getLast? = some (CellValue.str c)) :
    countClassOccurrences rows = [(c, rows.length)] := by
  match rows, hne with
  | r :: rs, _ =>
      have hr : r.getLast? = some (CellValue.str c) := h r (by simp)
      have hrest : ∀ x ∈ rs, x.getLast? = some (CellValue.str c) :=
        fun x hx => h x (by simp [hx])
      unfold countClassOccurrences
      simp only [List.foldl_cons, countCO_step _ _ _ hr]
      have hb : bump [] c = [(c, 1)] := by simp [bump]
      rw [hb, countCO_homog c rs 1 hrest]
      simp [List.length_cons]
      omega

/-- C9.  `Entropy` returns exactly `0` on the empty dataset, and exactly `0`
on every non-empty dataset all of whose rows carry the same string label in
their last cell. -/
theorem c9_entropy_zero :
    Entropy [] = 0 ∧
    ∀ (rows : Dataset) (c : String), rows ≠ [] →
      (∀ r ∈ rows, r.getLast? = some (CellValue.str c)) → Entropy rows = 0 := by
  constructor
  · simp [Entropy]
  · intro rows c hne h
    have hlen : rows.length ≠ 0 := by
      cases rows with
      | nil => exact absurd rfl hne
      | cons r rs => simp
    unfold Entropy
    rw [if_neg hlen, countCO_homog_eq rows c hne h]
    unfold computeProbabilities entropyFold
    have hp : ((rows.length : ℝ) / (rows.length : ℝ)) = 1 := by
      rw [div_self]
      exact_mod_cast hlen
    simp only [List.map_cons, List.map_nil, List.foldl_cons, List.foldl_nil, hp]
    rw [if_pos one_pos]
    simp [Real.logb_one]

/-- Witness for C9 at a concrete one-row dataset. -/
theorem c9_witness : Entropy [[CellValue.str "x", CellValue.str "Yes"]] = 0 :=
  c9_entropy_zero.2 [[CellValue.str "x", CellValue.str "Yes"]] "Yes"
    (by decide) (by decide)

/-! ## C5: `Split` partitions its input exactly -/

lemma headerIndex_of_mem {hdr : List String} {attr : String} (h : attr ∈ hdr) :
    ∃ idx, headerIndex hdr attr = some idx := by
  induction hdr with
  | nil => cases h
  | cons x t ih =>
      by_cases hx : x = attr
      · exact ⟨0, by simp [headerIndex, hx]⟩
      · have hmem : attr ∈ t := by
          cases h with
          | head => exact absurd rfl hx
          | tail _ h2 => exact h2
        obtain ⟨i, hi⟩ := ih hmem
        exact ⟨i + 1, by simp [headerIndex, hx, hi]⟩

lemma headerIndex_lt {hdr : List String} {attr : String} {idx : Nat}
    (h : headerIndex hdr attr = some idx) : idx < hdr.length := by
  induction hdr generalizing idx with
  | nil => simp [headerIndex] at h
  | cons x t ih =>
      by_cases hx : x = attr
      · simp only [headerIndex, if_pos hx, Option.some_inj] at h
        simp only [List.length_cons]
        omega
      · simp only [headerIndex, if_neg hx, Option.map_eq_some'] at h
        obtain ⟨j, hj, hj2⟩ := h
        have := ih hj
        simp only [List.length_cons]
        omega

/-- The concatenation of all subsets of a branch map. -/
def flatRows (m : List (String × Dataset)) : List Row := (m.map Prod.snd).flatten

lemma flatRows_insertGroup (gs : List (String × Dataset)) (k : String) (r : Row) :
    List.Perm (flatRows (insertGroup gs k r)) (flatRows gs ++ [r]) := by
  induction gs with
  | nil => simp [insertGroup, flatRows]
  | cons g rest ih =>
      obtain ⟨k2, rs⟩ := g
      by_cases hk : k2 = k
      · simp only [insertGroup, if_pos hk, flatRows, List.map_cons, List.flatten_cons]
        rw [List.append_assoc, List.append_assoc]
        exact List.Perm.append_left rs List.perm_append_comm
      · simp only [insertGroup, if_neg hk, flatRows, List.map_cons, List.flatten_cons] at *
        rw [List.append_assoc]
        exact List.Perm.append_left rs ih

lemma groupByKey_fold_perm (idx : Nat) :
    ∀ (ds : Dataset) (gs : List (String × Dataset)),
      (∀ r ∈ ds, idx < r.length) →
      List.Perm
        (flatRows (ds.foldl
          (fun acc r =>
            match r[idx]? with
            | some c => insertGroup acc (keyOf c) r
            | none => acc)
          gs))
        (flatRows gs ++ ds) := by
  intro ds
  induction ds with
  | nil => intro gs _; simp
  | cons r rs ih =>
      intro gs h
      have hr : idx < r.length := h r (by simp)
      have hrest : ∀ x ∈ rs, idx < x.length := fun x hx => h x (by simp [hx])
      have hc : r[idx]? = some r[idx] := List.getElem?_eq_getElem hr
      simp only [List.foldl_cons, hc]
      refine (ih _ hrest).trans ?_
      have h2 := flatRows_insertGroup gs (keyOf r[idx]) r
      refine (List.Perm.append_right rs h2).trans ?_
      rw [List.append_assoc]
      exact List.Perm.refl _

lemma groupByKey_perm (ds : Dataset) (idx : Nat) (h : ∀ r ∈ ds, idx < r.length) :
    List.Perm (flatRows (groupByKey ds idx)) ds := by
  have h2 := groupByKey_fold_perm idx ds [] h
  unfold groupByKey
  refine h2.trans ?_
  simp [flatRows]

lemma filter_not_perm (p : Row → Prop) [DecidablePred p] (l : Dataset) :
    List.Perm (l.filter (fun r => decide (p r)) ++ l.filter (fun r => decide (¬ p r))) l := by
  induction l with
  | nil => simp
  | cons r rs ih =>
      by_cases hp : p r
      · simp only [List.filter_cons, decide_eq_true hp,
          decide_eq_false (not_not_intro hp), cond_true, cond_false]
        exact (ih.cons r)
      · simp only [List.filter_cons, decide_eq_false hp,
          decide_eq_true (show ¬ p r from hp), cond_true, cond_false]
        exact List.Perm.trans List.perm_middle (ih.cons r)

lemma findBestThreshold_eq {ds : Dataset} {idx : Nat} {t : ℚ} {lft rgt : Dataset}
    (h : FindBestThreshold ds idx = some (t, lft, rgt)) :
    lft = ds.filter (fun r => decide (floatValAt r idx ≤ t)) ∧
      rgt = ds.filter (fun r => decide (¬ floatValAt r idx ≤ t)) := by
  unfold FindBestThreshold at h
  split at h
  · cases h
  · simp only [] at h
    split at h
    · cases h
    · simp only [Option.some_inj, Prod.mk.injEq] at h
      obtain ⟨ht, hl, hr⟩ := h
      subst ht
      exact ⟨hl.symm, hr.symm⟩

/-- C5 (amended).  Whenever `SplitDataset` returns a branch map (no panic) on
a dataset whose rows all have header length, with the attribute present in
the header, the map is an exact partition of the rows: the subset sizes sum
to the number of rows, and the concatenation of all subsets is a permutation
of the input (so every row lands in exactly one subset, with no duplication
and no loss). -/
theorem c5_split_partition :
    ∀ (ds : Dataset) (hdr : List String) (attr : String) (m : List (String × Dataset)),
      (∀ r ∈ ds, r.length = hdr.length) → attr ∈ hdr →
      SplitDataset ds hdr attr = some m →
      (m.map (fun p => p.2.length)).sum = ds.length ∧ List.Perm (flatRows m) ds := by
  intro ds hdr attr m hlen hmem hsplit
  obtain ⟨idx, hidx⟩ := headerIndex_of_mem hmem
  have hidxlt := headerIndex_lt hidx
  have hrowlt : ∀ r ∈ ds, idx < r.length := fun r hr => (hlen r hr) ▸ hidxlt
  have hperm : List.Perm (flatRows m) ds := by
    unfold SplitDataset at hsplit
    rw [hidx] at hsplit
    cases ds with
    | nil => cases hsplit
    | cons r0 rest =>
        simp only at hsplit
        cases hc0 : r0[idx]? with
        | none => rw [hc0] at hsplit; cases hsplit
        | some cell =>
            rw [hc0] at hsplit
            cases cell with
            | str s =>
                simp only [Option.some_inj] at hsplit
                subst hsplit
                exact groupByKey_perm (r0 :: rest) idx hrowlt
            | num q =>
                simp only at hsplit
                cases hfbt : FindBestThreshold (r0 :: rest) idx with
                | none => rw [hfbt] at hsplit; cases hsplit
                | some p =>
                    rw [hfbt] at hsplit
                    simp only [Option.some_inj] at hsplit
                    subst hsplit
                    obtain ⟨t, lft, rgt⟩ := p
                    obtain ⟨hl, hr⟩ := findBestThreshold_eq hfbt
                    subst hl; subst hr
                    simp only [flatRows, List.map_cons, List.map_nil, List.flatten_cons,
                      List.flatten_nil, List.append_nil]
                    exact filter_not_perm (fun r => floatValAt r idx ≤ t) (r0 :: rest)
            | date d =>
                simp only at hsplit
                cases hfbt : FindBestThreshold (r0 :: rest) idx with
                | none => rw [hfbt] at hsplit; cases hsplit
                | some p =>
                    rw [hfbt] at hsplit
                    simp only [Option.some_inj] at hsplit
                    subst hsplit
                    obtain ⟨t, lft, rgt⟩ := p
                    obtain ⟨hl, hr⟩ := findBestThreshold_eq hfbt
                    subst hl; subst hr
                    simp only [flatRows, List.map_cons, List.map_nil, List.flatten_cons,
                      List.flatten_nil, List.append_nil]
                    exact filter_not_perm (fun r => floatValAt r idx ≤ t) (r0 :: rest)
  refine ⟨?_, hperm⟩
  have hlenperm := hperm.length_eq
  rw [← hlenperm, flatRows, List.length_flatten, List.map_map]
  rfl

/-- Counterexample for C5 as stated: on the empty dataset (all of whose rows
vacuously have header length, with the attribute present), `SplitDataset`
does not return a partition at all — `dataset[0][attrIndex]` panics. -/
theorem c5_counterexample : SplitDataset [] ["A", "C"] "A" = none := by rfl

/-! ## C7: non-emptiness of branch subsets -/

lemma insertSorted_perm (x : ℚ) (l : List ℚ) :
    List.Perm (insertSorted x l) (x :: l) := by
  induction l with
  | nil => simp [insertSorted]
  | cons y ys ih =>
      by_cases hxy : x ≤ y
      · simp [insertSorted, hxy]
      · simp only [insertSorted, if_neg hxy]
        exact (ih.cons y).trans (List.Perm.swap x y ys)

lemma sortQ_perm (l : List ℚ) : List.Perm (sortQ l) l := by
  induction l with
  | nil => simp [sortQ]
  | cons x xs ih =>
      simp only [sortQ, List.foldr_cons]
      exact (insertSorted_perm x (xs.foldr insertSorted [])).trans (ih.cons x)

lemma insertGroup_nonempty (gs : List (String × Dataset)) (k : String) (r : Row)
    (h : ∀ p ∈ gs, p.2 ≠ []) : ∀ p ∈ insertGroup gs k r, p.2 ≠ [] := by
  induction gs with
  | nil =>
      intro p hp
      simp only [insertGroup, List.mem_singleton] at hp
      subst hp; simp
  | cons g rest ih =>
      obtain ⟨k2, rs⟩ := g
      intro p hp
      by_cases hk : k2 = k
      · simp only [insertGroup, if_pos hk, List.mem_cons] at hp
        cases hp with
        | inl h2 => subst h2; simp
        | inr h2 => exact h (p.1, p.2) (by simpa using Or.inr h2)
      · simp only [insertGroup, if_neg hk, List.mem_cons] at hp
        cases hp with
        | inl h2 => subst h2; exact h (k2, rs) (by simp)
        | inr h2 =>
            exact ih (fun p2 hp2 => h p2 (by simp [hp2])) p h2

lemma groupByKey_fold_nonempty (idx : Nat) :
    ∀ (ds : Dataset) (gs : List (String × Dataset)),
      (∀ p ∈ gs, p.2 ≠ []) →
      ∀ p ∈ ds.foldl
          (fun acc r =>
            match r[idx]? with
            | some c => insertGroup acc (keyOf c) r
            | none => acc)
          gs, p.2 ≠ [] := by
  intro ds
  induction ds with
  | nil => intro gs h; simpa using h
  | cons r rs ih =>
      intro gs h
      simp only [List.foldl_cons]
      cases hc : r[idx]? with
      | none => exact ih gs h
      | some c => exact ih _ (insertGroup_nonempty gs (keyOf c) r h)

lemma getCol_forall2 :
    ∀ {ds : Dataset} {idx : Nat} {cells : List CellValue},
      getCol ds idx = some cells →
      List.Forall₂ (fun (r : Row) (c : CellValue) => r[idx]? = some c) ds cells := by
  intro ds
  induction ds with
  | nil =>
      intro idx cells h
      simp only [getCol, Option.some_inj] at h
      subst h; exact List.Forall₂.nil
  | cons r rs ih =>
      intro idx cells h
      unfold getCol at h
      cases hc : r[idx]? with
      | none => rw [hc] at h; cases h
      | some c =>
          rw [hc] at h
          cases hcs : getCol rs idx with
          | none => rw [hcs] at h; cases h
          | some cs =>
              rw [hcs] at h
              simp only [Option.some_inj] at h
              subst h
              exact List.Forall₂.cons hc (ih hcs)

lemma forall2_mem_right {R : Row → CellValue → Prop} :
    ∀ {l1 : Dataset} {l2 : List CellValue}, List.Forall₂ R l1 l2 →
      ∀ {c}, c ∈ l2 → ∃ r ∈ l1, R r c := by
  intro l1 l2 h
  induction h with
  | nil => intro c hc; cases hc
  | cons hr h2 ih =>
      intro c hc
      cases hc with
      | head => exact ⟨_, by simp, hr⟩
      | tail _ hc2 =>
          obtain ⟨r, hr2, hR⟩ := ih hc2
          exact ⟨r, by simp [hr2], hR⟩

/-- Structure of a successful `FindBestThreshold` (hacker2) call: the column
read succeeded, the returned threshold sits at index `len(values)/2` of the
sorted usable values (in particular it is one of them), and the subsets are
the `<=` / `>` filters. -/
lemma findBestThreshold_parts {ds : Dataset} {idx : Nat} {t : ℚ} {lft rgt : Dataset}
    (h : FindBestThreshold ds idx = some (t, lft, rgt)) :
    ∃ cells, getCol ds idx = some cells ∧
      (sortQ (cells.filterMap h2NumValue))[(cells.filterMap h2NumValue).length / 2]?
        = some t ∧
      t ∈ cells.filterMap h2NumValue ∧
      lft = ds.filter (fun r => decide (floatValAt r idx ≤ t)) ∧
      rgt = ds.filter (fun r => decide (¬ floatValAt r idx ≤ t)) := by
  unfold FindBestThreshold at h
  cases hcol : getCol ds idx with
  | none => rw [hcol] at h; cases h
  | some cells =>
      rw [hcol] at h
      simp only [] at h
      cases hget : (sortQ (cells.filterMap h2NumValue))[(cells.filterMap
          h2NumValue).length / 2]? with
      | none => rw [hget] at h; cases h
      | some t2 =>
          rw [hget] at h
          simp only [Option.some_inj, Prod.mk.injEq] at h
          obtain ⟨ht, hl, hr⟩ := h
          subst ht
          refine ⟨cells, rfl, hget, ?_, hl.symm, hr.symm⟩
          exact (sortQ_perm _).mem_iff.mp (List.getElem?_mem hget)

/-- C7 (amended).  Whenever `SplitDataset` returns a branch map: every subset
of a categorical split (first cell of the column a string) is non-empty; a
numeric split (every cell of the column a float) returns exactly the two
branch keys `<=T` / `>T`, of which the `<=T` subset is always non-empty —
the `>T` subset, however, may be empty (see the counterexample). -/
theorem c7_branch_nonempty :
    ∀ (ds : Dataset) (hdr : List String) (attr : String) (m : List (String × Dataset))
      (idx : Nat),
      headerIndex hdr attr = some idx →
      SplitDataset ds hdr attr = some m →
      ((∃ r0 rest s, ds = r0 :: rest ∧ r0[idx]? = some (CellValue.str s)) →
        ∀ p ∈ m, p.2 ≠ []) ∧
      ((∀ r ∈ ds, ∃ q, r[idx]? = some (CellValue.num q)) → ds ≠ [] →
        ∃ t lft rgt, m = [("<=" ++ fmt2 t, lft), (">" ++ fmt2 t, rgt)] ∧ lft ≠ []) := by
  intro ds hdr attr m idx hidx hsplit
  unfold SplitDataset at hsplit
  rw [hidx] at hsplit
  constructor
  · rintro ⟨r0, rest, s, hds, hc0⟩ p hp
    subst hds
    simp only at hsplit
    rw [hc0] at hsplit
    simp only [Option.some_inj] at hsplit
    subst hsplit
    exact groupByKey_fold_nonempty idx (r0 :: rest) [] (by simp) p hp
  · intro hnum hne
    cases ds with
    | nil => exact absurd rfl hne
    | cons r0 rest =>
        obtain ⟨q0, hq0⟩ := hnum r0 (by simp)
        simp only at hsplit
        rw [hq0] at hsplit
        simp only at hsplit
        cases hfbt : FindBestThreshold (r0 :: rest) idx with
        | none => rw [hfbt] at hsplit; cases hsplit
        | some p =>
            obtain ⟨t, lft, rgt⟩ := p
            rw [hfbt] at hsplit
            simp only [Option.some_inj] at hsplit
            subst hsplit
            obtain ⟨cells, hcol, hget, htmem, hl, hr⟩ := findBestThreshold_parts hfbt
            refine ⟨t, lft, rgt, rfl, ?_⟩
            obtain ⟨c, hcmem, hcval⟩ := List.mem_filterMap.mp htmem
            have hf2 := getCol_forall2 hcol
            obtain ⟨r, hrmem, hrc⟩ := forall2_mem_right hf2 hcmem
            obtain ⟨qr, hqr⟩ := hnum r hrmem
            have hcq : c = CellValue.num qr := by
              rw [hrc] at hqr
              exact Option.some_inj.mp hqr
            subst hcq
            simp only [h2NumValue, Option.some_inj] at hcval
            have hfv : floatValAt r idx = t := by
              simp [floatValAt, hrc, hcval]
            intro hlnil
            have hmem3 : r ∈ lft := by
              rw [hl]
              refine List.mem_filter.mpr ⟨hrmem, ?_⟩
              simp [hfv]
            rw [hlnil] at hmem3
            cases hmem3

/-- Counterexample for C7 as stated: a numeric split whose median threshold
is the maximum value produces an empty `>T` branch subset. -/
theorem c7_counterexample :
    SplitDataset [[CellValue.num 1, CellValue.str "A"], [CellValue.num 2, CellValue.str "B"]]
      ["X", "C"] "X" =
      some [("<=2.00", [[CellValue.num 1, CellValue.str "A"],
        [CellValue.num 2, CellValue.str "B"]]), (">2.00", [])] := by rfl

/-- Witness for C7 at a concrete two-row numeric dataset. -/
theorem c7_witness :
    ∃ t lft rgt,
      [("<=2.00", [[CellValue.num 1, CellValue.str "A"], [CellValue.num 2, CellValue.str "B"]]),
        (">2.00", ([] : Dataset))] = [("<=" ++ fmt2 t, lft), (">" ++ fmt2 t, rgt)] ∧ lft ≠ [] :=
  (c7_branch_nonempty
      [[CellValue.num 1, CellValue.str "A"], [CellValue.num 2, CellValue.str "B"]]
      ["X", "C"] "X"
      [("<=2.00", [[CellValue.num 1, CellValue.str "A"], [CellValue.num 2, CellValue.str "B"]]),
        (">2.00", [])] 0 (by rfl) (by rfl)).2
    (by
      intro r hr
      simp only [List.mem_cons, List.not_mem_nil, or_false] at hr
      rcases hr with rfl | rfl
      · exact ⟨1, rfl⟩
      · exact ⟨2, rfl⟩)
    (by decide)

/-- Witness for C5 at a concrete one-row categorical dataset. -/
theorem c5_witness :
    (([("a", [[CellValue.str "a", CellValue.str "Yes"]])].map
        (fun p => p.2.length)).sum = [[CellValue.str "a", CellValue.str "Yes"]].length) ∧
      List.Perm (flatRows [("a", [[CellValue.str "a", CellValue.str "Yes"]])])
        [[CellValue.str "a", CellValue.str "Yes"]] :=
  c5_split_partition [[CellValue.str "a", CellValue.str "Yes"]] ["A", "C"] "A"
    [("a", [[CellValue.str "a", CellValue.str "Yes"]])]
    (by decide) (by decide) (by rfl)

/-! ## C6: `BestThreshold` with zero usable values -/

/-- C6 (amended).  The unnamed variant's `FindBestThreshold` returns the
sentinel `(0, nil, nil)` whenever the attribute has zero usable
numeric/temporal values (its explicit `len(values) == 0` guard), never
indexing out of bounds.  The hacker2 variant has no such guard and panics
instead (see the counterexample). -/
theorem c6_graceful_sentinel :
    ∀ (ds : Dataset) (idx : Nat) (cells : List CellValue),
      getCol ds idx = some cells →
      (∀ c ∈ cells, uNumValue c = none) →
      FindBestThresholdU ds idx = some (0, [], []) := by
  intro ds idx cells hcol hnone
  have hempty : cells.filterMap uNumValue = [] := by
    rw [List.filterMap_eq_nil_iff]
    exact hnone
  unfold FindBestThresholdU
  rw [hcol]
  simp [hempty]

/-- Counterexample for C6 as stated of the hacker2 variant: with zero usable
numeric values, `FindBestThreshold` indexes `values[0]` of an empty slice
(modelled by `none`) instead of returning a sentinel. -/
theorem c6_counterexample :
    FindBestThreshold [[CellValue.str "a", CellValue.str "Yes"]] 0 = none := by rfl

/-- Witness for C6 at a concrete all-categorical column. -/
theorem c6_witness :
    FindBestThresholdU [[CellValue.str "a", CellValue.str "Yes"]] 0 = some (0, [], []) :=
  c6_graceful_sentinel [[CellValue.str "a", CellValue.str "Yes"]] 0 [CellValue.str "a"]
    (by rfl) (by decide)

/-! ## C8: the label column is not treated as a raw categorical string -/

/-- A concrete stand-in for `strconv.ParseFloat` accepting exactly the two
label strings of the failing input. -/
def pnDemo : String → Option ℚ :=
  fun s => if s = "0" then some 0 else if s = "1" then some 1 else none

/-- A concrete stand-in for `parseDate` rejecting everything. -/
def pdDemo : String → Option Int := fun _ => none

/-- C8 (code bug).  On a dataset whose label column consists of the numeric
strings `"0"`/`"1"`, `detectColumnTypes` classifies the label column as
`"numeric"`, `LoadCsv`'s conversion turns every label into a float cell, and
`CountClassOccurrences` then skips every row (failed `.(string)` assertion),
so the class counts are empty and the entropy is `0` — the labels are not
treated as raw categorical strings and are never counted. -/
theorem c8_numeric_labels_uncounted :
    detectColumnTypes pnDemo pdDemo [["Sunny", "0"], ["Rainy", "1"]]
        = ["categorical", "numeric"] ∧
      convertData pnDemo pdDemo ["categorical", "numeric"] [["Sunny", "0"], ["Rainy", "1"]]
        = [[CellValue.str "Sunny", CellValue.num 0], [CellValue.str "Rainy", CellValue.num 1]] ∧
      countClassOccurrences
        [[CellValue.str "Sunny", CellValue.num 0], [CellValue.str "Rainy", CellValue.num 1]]
        = [] ∧
      Entropy [[CellValue.str "Sunny", CellValue.num 0], [CellValue.str "Rainy", CellValue.num 1]]
        = 0 :=
  ⟨by rfl, by rfl, by rfl, by rfl⟩

/-! ## C2: the unseen-branch fallback of `Predict` -/

mutual

/-- Modelled from the spec: the classes of every descendant leaf of a
subtree, in traversal order ("recursively tally every descendant Leaf's
Class").  Used only to compare the spec's described fallback with the
implemented `FindMostCommonClass`. -/
def leafClasses : TreeNode → List String
  | .mk _ _ _ cls true => [cls]
  | .mk _ _ Children.nil0 _ false => []
  | .mk _ _ (Children.node es) _ false => leafClassesEntries es

def leafClassesEntries : Entries → List String
  | Entries.nil => []
  | Entries.cons _ c rest => leafClasses c ++ leafClassesEntries rest

end

/-- Modelled from the spec: "return the Majority Label computed by walking
the subtree rooted at `tree` (recursively tally every descendant Leaf's
Class and pick the most frequent)". -/
def specDescLeafMajority (t : TreeNode) : String :=
  pickMostCommon ((leafClasses t).foldl bump [])

/-- A leaf node as built by `BuildDecisionTree`. -/
def mkLeaf (c : String) : TreeNode := TreeNode.mk "" 0 Children.nil0 c true

/-- Concrete tree for the C2 counterexample: branch `v1 ↦ leaf A`,
`v2 ↦ leaf A`, `v3 ↦` an internal node with three `B` leaves. -/
def c2tree : TreeNode :=
  TreeNode.mk "X" 0
    (Children.node (Entries.cons "v1" (mkLeaf "A")
      (Entries.cons "v2" (mkLeaf "A")
        (Entries.cons "v3"
          (TreeNode.mk "Y" 0
            (Children.node (Entries.cons "w1" (mkLeaf "B")
              (Entries.cons "w2" (mkLeaf "B")
                (Entries.cons "w3" (mkLeaf "B") Entries.nil)))) "" false)
          Entries.nil)))) "" false

/-- Counterexample for C2 as stated: on the unseen branch key `"Foggy"`,
`Predict` returns `"A"` (each child votes once: two `A` leaves against one
recursively-computed `B` majority), whereas tallying every descendant leaf
(2 × `A`, 3 × `B`) yields `"B"`. -/
theorem c2_counterexample :
    Predict c2tree [("X", "Foggy")] = "A" ∧
      specDescLeafMajority c2tree = "B" ∧ ("A" : String) ≠ "B" :=
  ⟨by rfl, by rfl, by decide⟩

lemma predictEntries_none :
    ∀ (es : Entries) (v : String) (inst : List (String × String)),
      lookupEntry es v = none → predictEntries es v inst = none
  | Entries.nil, _, _, _ => rfl
  | Entries.cons k c rest, v, inst, h => by
      unfold lookupEntry at h
      unfold predictEntries
      by_cases hk : k = v
      · rw [if_pos hk] at h; cases h
      · rw [if_neg hk] at h
        rw [if_neg hk]
        exact predictEntries_none rest v inst h

/-- C2 (amended).  For an internal node whose attribute is present in the
record but whose branch key is absent from its children, `Predict` returns
`FindMostCommonClass` of that node — a recursive majority in which every
child contributes exactly one vote (a leaf child its `Class`, an internal
child its own recursively computed majority) — rather than failing; this is
not in general the majority over all descendant leaves (see the
counterexample). -/
theorem c2_predict_fallback :
    ∀ (a : String) (th : ℚ) (es : Entries) (cls : String)
      (inst : List (String × String)) (v : String),
      lookupStr inst a = some v →
      lookupEntry es v = none →
      Predict (TreeNode.mk a th (Children.node es) cls false) inst
        = FindMostCommonClass (TreeNode.mk a th (Children.node es) cls false) := by
  intro a th es cls inst v hv hnone
  have h1 : Predict (TreeNode.mk a th (Children.node es) cls false) inst =
      match lookupStr inst a with
      | none => "Unknown"
      | some v2 =>
          match predictEntries es v2 inst with
          | some res => res
          | none => FindMostCommonClass (TreeNode.mk a th (Children.node es) cls false) := rfl
  rw [h1, hv]
  have h2 := predictEntries_none es v inst hnone
  simp only [h2]

/-- Witness for C2 at a concrete one-child tree and unseen branch key. -/
theorem c2_witness :
    Predict (TreeNode.mk "X" 0 (Children.node (Entries.cons "S" (mkLeaf "Yes") Entries.nil))
        "" false) [("X", "F")]
      = FindMostCommonClass (TreeNode.mk "X" 0
          (Children.node (Entries.cons "S" (mkLeaf "Yes") Entries.nil)) "" false) :=
  c2_predict_fallback "X" 0 (Entries.cons "S" (mkLeaf "Yes") Entries.nil) "" [("X", "F")] "F"
    (by rfl) (by rfl)

/-! ## C10: every built node is exactly a leaf or an internal node -/

mutual

/-- The claimed two-variant invariant: a leaf has `IsLeaf = true` and a `nil`
children map; an internal node has `IsLeaf = false`, a non-`nil` (`make`d)
children map, the zero-value `Class` `""`, and well-formed children. -/
def wfNode : TreeNode → Bool
  | .mk _ _ Children.nil0 _ isLeaf => isLeaf
  | .mk _ _ (Children.node es) cls isLeaf => !isLeaf && (cls == "") && wfEntries es

def wfEntries : Entries → Bool
  | Entries.nil => true
  | Entries.cons _ c rest => wfNode c && wfEntries rest

end

lemma buildEntries_wf (rec : Dataset → List String → Option TreeNode) (hdr : List String)
    (hrec : ∀ ds t, rec ds hdr = some t → wfNode t = true) :
    ∀ (l : List (String × Dataset)) (es : Entries),
      buildEntries rec hdr l = some es → wfEntries es = true := by
  intro l
  induction l with
  | nil =>
      intro es h
      simp only [buildEntries, Option.some_inj] at h
      subst h; rfl
  | cons p rest ih =>
      intro es h
      obtain ⟨k, sub⟩ := p
      unfold buildEntries at h
      cases hc : rec sub hdr with
      | none => rw [hc] at h; cases h
      | some c =>
          rw [hc] at h
          cases hes : buildEntries rec hdr rest with
          | none => rw [hes] at h; cases h
          | some es2 =>
              rw [hes] at h
              simp only [Option.some_inj] at h
              subst h
              simp [wfEntries, hrec sub c hc, ih es2 hes]

/-- C10.  Every node of a tree produced by `BuildDecisionTree` is exactly one
of the two variants: a leaf (`IsLeaf = true`, `nil` children map) or an
internal node (`IsLeaf = false`, non-`nil` children map, empty `Class`);
no node carries both a class and children. -/
theorem c10_node_variants :
    ∀ (fuel : Nat) (ds : Dataset) (hdr : List String) (t : TreeNode),
      buildDT fuel ds hdr = some t → wfNode t = true := by
  intro fuel
  induction fuel with
  | zero => intro ds hdr t h; cases h
  | succ fuel ih =>
      intro ds hdr t h
      rw [show buildDT (fuel + 1) = buildDTStep (buildDT fuel) from rfl] at h
      unfold buildDTStep at h
      split at h
      · -- pure-class leaf
        simp only [Option.some_inj] at h
        subst h; rfl
      · split at h
        · cases h
        · split at h
          · -- majority leaf
            simp only [Option.some_inj] at h
            subst h; rfl
          · split at h
            · cases h
            · split at h
              · cases h
              · split at h
                · cases h
                · -- categorical branch
                  split at h
                  · cases h
                  · split at h
                    · cases h
                    · simp only [Option.some_inj] at h
                      subst h
                      rename_i es hes
                      have hwf := buildEntries_wf (buildDT fuel) hdr
                        (fun ds2 t2 h2 => ih ds2 hdr t2 h2) _ es hes
                      simp [wfNode, hwf]
                · -- numeric branch
                  split at h
                  · cases h
                  · split at h
                    · cases h
                    · split at h
                      · cases h
                      · simp only [Option.some_inj] at h
                        subst h
                        rename_i lt hlt _ rt hrt
                        simp [wfNode, wfEntries, ih _ _ _ hlt, ih _ _ _ hrt]

/-- Witness for C10 at a concrete pure one-row dataset. -/
theorem c10_witness : wfNode (TreeNode.mk "" 0 Children.nil0 "Yes" true) = true :=
  c10_node_variants 1 [[CellValue.str "x", CellValue.str "Yes"]] ["A", "Class"]
    (TreeNode.mk "" 0 Children.nil0 "Yes" true) (by rfl)

/-! ## C1: `BuildDecisionTree` does not terminate on a single-valued
attribute with mixed labels -/

/-- Failing input for C1: one attribute with a single observed value `"x"`
and two different labels. -/
def c1rows : Dataset :=
  [[CellValue.str "x", CellValue.str "Yes"], [CellValue.str "x", CellValue.str "No"]]

def c1hdr : List String := ["A", "Class"]

lemma c1_split : SplitDataset c1rows c1hdr "A" = some [("x", c1rows)] := by rfl

lemma c1_infogain : InformationGain c1rows c1hdr "A" = some 0 := by
  unfold InformationGain
  rw [if_neg (by decide : ¬ c1rows.length = 0), c1_split]
  simp only [Option.map_some', Option.some_inj, List.foldl_cons, List.foldl_nil]
  have hl : ((c1rows.length : ℕ) : ℝ) = 2 := by norm_num [c1rows]
  norm_num [hl]

lemma c1_gainratio : GainRatio c1rows c1hdr "A" = some 0 := by
  unfold GainRatio
  rw [if_neg (by decide : ¬ c1rows.length = 0), c1_infogain]
  simp

lemma c1_bestattr : BestAttribute c1rows c1hdr = some "A" := by
  unfold BestAttribute c1hdr
  simp only [List.dropLast, List.foldl_cons, List.foldl_nil]
  rw [show GainRatio c1rows ["A", "Class"] "A" = some 0 from c1_gainratio]
  simp only []
  rw [if_pos (by norm_num : (-1 : ℝ) < 0)]
  rfl

/-- C1 (code bug).  On the failing input, `BuildDecisionTree` never returns
for any recursion fuel: `BestAttribute` (best gain ratio initialised to
`-1`) selects the attribute `"A"` even though its gain ratio is `0`, the
split on the single observed value returns the entire dataset as its only
subset, and the recursion repeats on an identical input forever. -/
theorem c1_build_decision_tree_diverges :
    ∀ fuel : Nat, buildDT fuel c1rows c1hdr = none := by
  intro fuel
  induction fuel with
  | zero => rfl
  | succ fuel ih =>
      rw [show buildDT (fuel + 1) = buildDTStep (buildDT fuel) from rfl]
      unfold buildDTStep
      rw [show countClassOccurrences c1rows = [("Yes", 1), ("No", 1)] from rfl]
      simp only [c1_bestattr]
      rw [if_neg (by decide : ¬ ("A" : String) = "")]
      rw [show headerIndex c1hdr "A" = some 0 from rfl]
      simp only [c1rows]
      rw [show ([CellValue.str "x", CellValue.str "Yes"] : Row)[(0 : Nat)]?
        = some (CellValue.str "x") from rfl]
      rw [show SplitDataset ([[CellValue.str "x", CellValue.str "Yes"],
        [CellValue.str "x", CellValue.str "No"]] : Dataset) c1hdr "A"
        = some [("x", c1rows)] from c1_split]
      simp only [buildEntries, ih]

/-! ## C4: serialisation round trip -/

mutual

theorem decode_encode_node : (t : TreeNode) → decodeNode (encodeNode t) = some t
  | TreeNode.mk a th Children.nil0 c l => by
      simp [encodeNode, encodeChildren, decodeNode, decodeFields]
  | TreeNode.mk a th (Children.node es) c l => by
      simp [encodeNode, encodeChildren, decodeNode, decodeFields,
        decode_encode_entries es]

theorem decode_encode_entries : (es : Entries) → decodeEntries (encodeEntriesJ es) = some es
  | Entries.nil => by simp [encodeEntriesJ, decodeEntries]
  | Entries.cons k c rest => by
      simp [encodeEntriesJ, decodeEntries, decode_encode_node c,
        decode_encode_entries rest]

end

/-- C4.  Deserialising a serialised tree succeeds with an equal value graph,
so predicting with the reloaded tree yields the same label as predicting
with the original tree, for every tree and every record. -/
theorem c4_roundtrip_predict :
    ∀ (t : TreeNode) (inst : List (String × String)),
      ∃ t2, decodeNode (encodeNode t) = some t2 ∧ Predict t2 inst = Predict t inst :=
  fun t _ => ⟨t, decode_encode_node t, rfl⟩

/-! ## C3: threshold selection policy -/

/-- Predicate: `x` is the first element of `l` attaining the maximum of `f` (the
first-candidate tie-break of the spec). -/
def isFirstMax (f : ℚ → ℝ) (l : List ℚ) (x : ℚ) : Prop :=
  ∃ i : Nat, l[i]? = some x ∧ (∀ (j : Nat) (y : ℚ), l[j]? = some y → f y ≤ f x) ∧
    (∀ (j : Nat) (y : ℚ), j < i → l[j]? = some y → f y < f x)

lemma fold_stay (f : ℚ → ℝ) :
    ∀ (l : List ℚ) (acc : ℚ × ℝ), (∀ y ∈ l, f y ≤ acc.2) →
      l.foldl (fun best c => if best.2 < f c then (c, f c) else best) acc = acc := by
  intro l
  induction l with
  | nil => intro acc _; rfl
  | cons c rest ih =>
      intro acc h
      simp only [List.foldl_cons]
      rw [if_neg (not_lt.mpr (h c (by simp)))]
      exact ih acc (fun y hy => h y (by simp [hy]))

lemma fold_first_max (f : ℚ → ℝ) :
    ∀ (l : List ℚ) (acc : ℚ × ℝ), (∃ y ∈ l, acc.2 < f y) →
      ∃ (i : Nat) (x : ℚ), l[i]? = some x ∧
        l.foldl (fun best c => if best.2 < f c then (c, f c) else best) acc = (x, f x) ∧
        acc.2 < f x ∧ (∀ (j : Nat) (y : ℚ), l[j]? = some y → f y ≤ f x) ∧
        (∀ (j : Nat) (y : ℚ), j < i → l[j]? = some y → f y < f x) := by
  intro l
  induction l with
  | nil =>
      intro acc h
      obtain ⟨y, hy, _⟩ := h
      cases hy
  | cons c rest ih =>
      intro acc h
      simp only [List.foldl_cons]
      by_cases hc : acc.2 < f c
      · rw [if_pos hc]
        by_cases hrest : ∃ y ∈ rest, f c < f y
        · obtain ⟨i, x, hix, hfold, hgt, hall, hfirst⟩ := ih (c, f c) (by simpa using hrest)
          refine ⟨i + 1, x, by simpa using hix, hfold, lt_trans hc hgt, ?_, ?_⟩
          · intro j y hj
            cases j with
            | zero =>
                simp only [List.getElem?_cons_zero, Option.some_inj] at hj
                subst hj
                exact le_of_lt hgt
            | succ j2 =>
                simp only [List.getElem?_cons_succ] at hj
                exact hall j2 y hj
          · intro j y hji hj
            cases j with
            | zero =>
                simp only [List.getElem?_cons_zero, Option.some_inj] at hj
                subst hj
                exact hgt
            | succ j2 =>
                simp only [List.getElem?_cons_succ] at hj
                exact hfirst j2 y (by omega) hj
        · push_neg at hrest
          have hstay := fold_stay f rest (c, f c) hrest
          refine ⟨0, c, by simp, by simp [hstay], hc, ?_, ?_⟩
          · intro j y hj
            cases j with
            | zero =>
                simp only [List.getElem?_cons_zero, Option.some_inj] at hj
                subst hj
                exact le_refl (f c)
            | succ j2 =>
                simp only [List.getElem?_cons_succ] at hj
                exact hrest y (List.getElem?_mem hj)
          · intro j y hji _
            omega
      · rw [if_neg hc]
        have hex : ∃ y ∈ rest, acc.2 < f y := by
          obtain ⟨y, hy, hlt⟩ := h
          cases hy with
          | head => exact absurd hlt hc
          | tail _ hy2 => exact ⟨y, hy2, hlt⟩
        obtain ⟨i, x, hix, hfold, hgt, hall, hfirst⟩ := ih acc hex
        have hcx : f c < f x := lt_of_le_of_lt (not_lt.mp hc) hgt
        refine ⟨i + 1, x, by simpa using hix, hfold, hgt, ?_, ?_⟩
        · intro j y hj
          cases j with
          | zero =>
              simp only [List.getElem?_cons_zero, Option.some_inj] at hj
              subst hj
              exact le_of_lt hcx
          | succ j2 =>
              simp only [List.getElem?_cons_succ] at hj
              exact hall j2 y hj
        · intro j y hji hj
          cases j with
          | zero =>
              simp only [List.getElem?_cons_zero, Option.some_inj] at hj
              subst hj
              exact hcx
          | succ j2 =>
              simp only [List.getElem?_cons_succ] at hj
              exact hfirst j2 y (by omega) hj

/-- C3 (amended).  The hacker2 variant's `FindBestThreshold` does no
candidate search at all: whenever it returns, its threshold is the element at
index `len(values)/2` of the sorted usable values — one of the observed
values, not an entropy-minimising midpoint — and the subsets are the
`<=` / `>` filters.  The hacker variant's `FindBestThreshold` does implement
the claimed policy: provided some midpoint candidate has information gain
above the `-1` initialiser, it returns the first midpoint between adjacent
sorted values maximising `EvaluateThreshold`'s information gain
(equivalently, minimising the weighted entropy). -/
theorem c3_threshold_policies :
    (∀ (ds : Dataset) (idx : Nat) (t : ℚ) (lft rgt : Dataset),
      FindBestThreshold ds idx = some (t, lft, rgt) →
      ∃ cells, getCol ds idx = some cells ∧
        (sortQ (cells.filterMap h2NumValue))[(cells.filterMap h2NumValue).length / 2]?
          = some t ∧
        t ∈ cells.filterMap h2NumValue ∧
        lft = ds.filter (fun r => decide (floatValAt r idx ≤ t)) ∧
        rgt = ds.filter (fun r => decide (¬ floatValAt r idx ≤ t))) ∧
    (∀ (ds : Dataset) (idx : Nat) (values : List ℚ),
      floatsAt ds idx = some values →
      (∃ c ∈ midpoints (sortQ values), -1 < EvaluateThresholdH ds idx c) →
      ∃ t, FindBestThresholdH ds idx = some t ∧
        isFirstMax (EvaluateThresholdH ds idx) (midpoints (sortQ values)) t) := by
  constructor
  · intro ds idx t lft rgt h
    exact findBestThreshold_parts h
  · intro ds idx values hfloats hex
    obtain ⟨i, x, hix, hfold, _, hall, hfirst⟩ :=
      fold_first_max (EvaluateThresholdH ds idx) (midpoints (sortQ values))
        ((0 : ℚ), (-1 : ℝ)) hex
    refine ⟨x, ?_, i, hix, hall, hfirst⟩
    unfold FindBestThresholdH
    rw [hfloats]
    simp only [Option.map_some', Option.some_inj]
    exact congrArg Prod.fst hfold

/-- Failing input for C3: a numeric column `[1, 2, 3, 10]`. -/
def c3rows : Dataset :=
  [[CellValue.num 1, CellValue.str "A"], [CellValue.num 2, CellValue.str "A"],
    [CellValue.num 3, CellValue.str "B"], [CellValue.num 10, CellValue.str "B"]]

/-- Counterexample for C3 as stated of the hacker2 variant: on the column
`[1, 2, 3, 10]` it returns the threshold `3` — the upper median — which is
not a midpoint between adjacent sorted values at all (the candidates are
`1.5`, `2.5`, `6.5`), so it cannot be the weighted-entropy-minimising
candidate the claim describes. -/
theorem c3_counterexample :
    (FindBestThreshold c3rows 0).map (fun p => p.1) = some 3 ∧
      floatsAt c3rows 0 = some [1, 2, 3, 10] ∧
      (3 : ℚ) ∉ midpoints (sortQ [1, 2, 3, 10]) := by
  refine ⟨by rfl, by rfl, ?_⟩
  norm_num [midpoints, sortQ, insertSorted]

lemma countH_homog (c : String) :
    ∀ (rows : Dataset) (k : Nat),
      (∀ r ∈ rows, ∃ cell, r.getLast? = some cell ∧ goFmtV cell = c) →
      rows.foldl
        (fun acc r =>
          match r.getLast? with
          | some cell => bump acc (goFmtV cell)
          | none => acc)
        [(c, k)] = [(c, k + rows.length)] := by
  intro rows
  induction rows with
  | nil => intro k _; simp
  | cons r rs ih =>
      intro k h
      obtain ⟨cell, hcell, hfmt⟩ := h r (by simp)
      have hrest : ∀ x ∈ rs, ∃ cell2, x.getLast? = some cell2 ∧ goFmtV cell2 = c :=
        fun x hx => h x (by simp [hx])
      simp only [List.foldl_cons, hcell, hfmt]
      have hb : bump [(c, k)] c = [(c, k + 1)] := by simp [bump]
      rw [hb, ih (k + 1) hrest]
      simp [List.length_cons]
      omega

lemma countH_homog_eq (rows : Dataset) (c : String) (hne : rows ≠ [])
    (h : ∀ r ∈ rows, ∃ cell, r.getLast? = some cell ∧ goFmtV cell = c) :
    countH rows = [(c, rows.length)] := by
  match rows, hne with
  | r :: rs, _ =>
      obtain ⟨cell, hcell, hfmt⟩ := h r (by simp)
      have hrest : ∀ x ∈ rs, ∃ cell2, x.getLast? = some cell2 ∧ goFmtV cell2 = c :=
        fun x hx => h x (by simp [hx])
      unfold countH
      simp only [List.foldl_cons, hcell, hfmt]
      have hb : bump [] c = [(c, 1)] := by simp [bump]
      rw [hb, countH_homog c rs 1 hrest]
      simp [List.length_cons]
      omega

lemma entropyH_homog (rows : Dataset) (c : String) (hne : rows ≠ [])
    (h : ∀ r ∈ rows, ∃ cell, r.getLast? = some cell ∧ goFmtV cell = c) :
    EntropyH rows = 0 := by
  have hlen : rows.length ≠ 0 := by
    cases rows with
    | nil => exact absurd rfl hne
    | cons r rs => simp
  unfold EntropyH
  rw [countH_homog_eq rows c hne h]
  unfold computeProbabilities entropyFold
  have hp : ((rows.length : ℝ) / (rows.length : ℝ)) = 1 := by
    rw [div_self]
    exact_mod_cast hlen
  simp only [List.map_cons, List.map_nil, List.foldl_cons, List.foldl_nil, hp]
  rw [if_pos one_pos]
  simp [Real.logb_one]

lemma entropyH_filter (rows : Dataset) (c : String) (p : Row → Bool)
    (h : ∀ r ∈ rows, ∃ cell, r.getLast? = some cell ∧ goFmtV cell = c) :
    EntropyH (rows.filter p) = 0 := by
  cases hf : rows.filter p with
  | nil => rfl
  | cons r rs =>
      rw [← hf]
      refine entropyH_homog (rows.filter p) c (by simp [hf]) ?_
      intro x hx
      exact h x (List.mem_of_mem_filter hx)

/-- Witness input for C3's hacker-variant conjunct: a single-class numeric
column, whose one midpoint candidate has information gain `0 > -1`. -/
def c3wrows : Dataset :=
  [[CellValue.num 1, CellValue.str "A"], [CellValue.num 2, CellValue.str "A"]]

lemma c3w_homog :
    ∀ r ∈ c3wrows, ∃ cell, r.getLast? = some cell ∧ goFmtV cell = "A" := by
  intro r hr
  simp only [c3wrows, List.mem_cons, List.not_mem_nil, or_false] at hr
  rcases hr with rfl | rfl
  · exact ⟨CellValue.str "A", by rfl, by rfl⟩
  · exact ⟨CellValue.str "A", by rfl, by rfl⟩

lemma c3w_gain : EvaluateThresholdH c3wrows 0 (3 / 2) = 0 := by
  unfold EvaluateThresholdH
  simp only []
  rw [if_neg (by decide : ¬ c3wrows.length = 0)]
  rw [entropyH_homog c3wrows "A" (by decide) c3w_homog,
    entropyH_filter c3wrows "A" _ c3w_homog, entropyH_filter c3wrows "A" _ c3w_homog]
  ring

/-- Witness for C3 at concrete inputs for both conjuncts' hypotheses. -/
theorem c3_witness :
    ∃ t, FindBestThresholdH c3wrows 0 = some t ∧
      isFirstMax (EvaluateThresholdH c3wrows 0) (midpoints (sortQ [1, 2])) t := by
  refine c3_threshold_policies.2 c3wrows 0 [1, 2] (by rfl) ⟨3 / 2, ?_, ?_⟩
  · norm_num [midpoints, sortQ, insertSorted]
  · rw [c3w_gain]
    norm_num

end DT
